import Mathlib

/-!
Verification of the RSVP speed-reader engine (src/js/reader.js).

Strings are modelled as `List Char`.  JS numbers are modelled as `ℚ`
(all arithmetic performed by the engine on the modelled paths is exact
decimal arithmetic, so `ℚ` is faithful), array indices as `ℤ` where the
source can receive out-of-range values and as `ℕ` where it cannot.
Regex character classes are modelled after the source's (non-unicode)
patterns: `\w` is `[A-Za-z0-9_]`, `\d` is `[0-9]`, and `\s` is modelled
by the ASCII whitespace characters.
-/

namespace SpeedReader

abbrev Str := List Char

/-- JS regex `\w` character class: ASCII letters, digits and underscore. -/
def isWordChar (c : Char) : Bool := c.isAlphanum || c = '_'

/-- JS regex `\d` character class. -/
def isDigitChar (c : Char) : Bool := c.isDigit

/-- JS regex `\s` / `String.trim` whitespace, restricted to ASCII. -/
def isSpaceChar (c : Char) : Bool :=
  c = ' ' || c = '\t' || c = '\n' || c = '\r' || c = '\x0b' || c = '\x0c'

/-- Spec-side notion: an ASCII alphanumeric character (letters and digits,
    underscore NOT included).  The spec's sentences say "non-alphanumeric
    characters removed"; the source's regex `[^\w]` keeps underscores too. -/
def removeNonAlnum (w : Str) : Str := w.filter (fun c => c.isAlphanum)

/-- `stripPunctuation` (reader.js:107-109): `word.replace(/[^\w]/g, '')`,
    i.e. keep exactly the `\w` characters. -/
def stripPunctuation (word : Str) : Str := word.filter isWordChar

/-- `getORPIndex` (reader.js:79-90).  Computes the highlight offset from the
    length of the cleaned word using the Spritz-style buckets of the source. -/
def getORPIndex (word : Str) : ℕ :=
  let cleanWord := word.filter isWordChar
  let length := cleanWord.length
  if length ≤ 1 then 0
  else if length ≤ 5 then 1
  else if length ≤ 9 then 2
  else if length ≤ 13 then 3
  else 4

/-- Spec-side restatement of the bucket table, as a function of the cleaned
    length alone (used to state the amended C1). -/
def orpBucket (length : ℕ) : ℕ :=
  if length ≤ 1 then 0
  else if length ≤ 5 then 1
  else if length ≤ 9 then 2
  else if length ≤ 13 then 3
  else 4

/-- Spec-side middle-letter rule of the claim (and of the repository's
    embedded requirements document): `length ≤ 1 → 0`, `length ≤ 3 → 1`,
    otherwise `⌊(length-1)/2⌋`. -/
def claimOffset (length : ℕ) : ℕ :=
  if length ≤ 1 then 0
  else if length ≤ 3 then 1
  else (length - 1) / 2

/-- `splitWord` output record. -/
structure WordParts where
  before : Str
  highlight : Str
  after : Str
deriving DecidableEq, Repr

/-- `splitWord` (reader.js:116-125): slices of the cleaned word around the
    ORP index; `cleanWord[highlightIndex] || ''` is modelled by the optional
    lookup defaulting to the empty string. -/
def splitWord (word : Str) : WordParts :=
  let cleanWord := stripPunctuation word
  let highlightIndex := getORPIndex word
  { before := cleanWord.take highlightIndex
    highlight :=
      match cleanWord[highlightIndex]? with
      | some ch => [ch]
      | none => []
    after := cleanWord.drop (highlightIndex + 1) }

/-- Characters removed from the end of a word before the punctuation lookup,
    `word.replace(/['"""'\)\]]+$/, '')` (reader.js:138).  The source's
    character class contains the plain apostrophe, the plain double quote
    (three times), `)` and `]`. -/
def isCloser (c : Char) : Bool := c = '\'' || c = '"' || c = ')' || c = ']'

/-- Strip the maximal trailing run of quote/bracket characters. -/
def stripClosers (word : Str) : Str := (word.reverse.dropWhile isCloser).reverse

/-- The multiplier table lookup `punctuationMultipliers[lastChar] || 1.0`
    (reader.js:141-152).  `none` models an `undefined` last character (empty
    string after stripping).  The source table also has an entry intended for
    the em dash, but its key is the three-character mojibake sequence
    "â€”" (U+2014 decoded twice, bytes C3 A2 E2 82 AC E2 80 9D), which can
    never be equal to the one-character `lastChar`; the entry is therefore
    unreachable and has no branch here. -/
def punctuationMultiplier (lastChar : Option Char) : ℚ :=
  match lastChar with
  | some '.' => 2
  | some '!' => 2
  | some '?' => 2
  | some ',' => 3/2
  | some ';' => 3/2
  | some ':' => 3/2
  | some '-' => 6/5
  | _ => 1

/-- `getWordDuration` (reader.js:133-155). -/
def getWordDuration (word : Str) (wpm : ℚ) : ℚ :=
  let baseDelay := 60000 / wpm
  let cleanWord := stripClosers word
  let lastChar := cleanWord.getLast?
  baseDelay * punctuationMultiplier lastChar

/-!
## Tokenizer (reader.js:24-41)

The three global regex replacements of `removeCitations` are modelled by
left-to-right scans.  A JS global replace finds the leftmost match, replaces
it, and resumes scanning right after the replaced region; with an empty
replacement string this is exactly the recursions below.  Each function is
written with an explicit fuel argument (one unit per character position
examined) so that it is structurally recursive and kernel-evaluable; the
wrapper passes `l.length` fuel, which suffices because every recursive call
consumes at least one character.
-/

/-- One pass of `.replace(/\[\d+\]/g, '')`: at a `[`, a nonempty maximal
    digit run followed immediately by `]` is a match and is dropped;
    otherwise the scan advances one character. -/
def stripCitationsF : ℕ → Str → Str
  | _, [] => []
  | 0, l => l
  | fuel + 1, c :: rest =>
    if c = '[' ∧ rest.takeWhile isDigitChar ≠ [] ∧
        (rest.dropWhile isDigitChar).head? = some ']' then
      stripCitationsF fuel (rest.dropWhile isDigitChar).tail
    else
      c :: stripCitationsF fuel rest

def stripCitations (l : Str) : Str := stripCitationsF l.length l

/-- `https?:\/\/` prefixes.  The optional `s?` is greedy, and since `s` and
    `:` differ the pattern matches at a position exactly when the text there
    starts with one of these two literal prefixes. -/
def httpsPat : Str := ['h', 't', 't', 'p', 's', ':', '/', '/']

def httpPat : Str := ['h', 't', 't', 'p', ':', '/', '/']

/-- One pass of `.replace(/https?:\/\/[^\s]+/g, '')`: a prefix match must be
    followed by at least one non-whitespace character; the match extends over
    the maximal non-whitespace run. -/
def stripHttpUrlsF : ℕ → Str → Str
  | _, [] => []
  | 0, l => l
  | fuel + 1, c :: rest =>
    if (c :: rest).take 8 = httpsPat ∧
        ((c :: rest).drop 8).takeWhile (fun ch => !isSpaceChar ch) ≠ [] then
      stripHttpUrlsF fuel (((c :: rest).drop 8).dropWhile (fun ch => !isSpaceChar ch))
    else if (c :: rest).take 7 = httpPat ∧
        ((c :: rest).drop 7).takeWhile (fun ch => !isSpaceChar ch) ≠ [] then
      stripHttpUrlsF fuel (((c :: rest).drop 7).dropWhile (fun ch => !isSpaceChar ch))
    else
      c :: stripHttpUrlsF fuel rest

def stripHttpUrls (l : Str) : Str := stripHttpUrlsF l.length l

def wwwPat : Str := ['w', 'w', 'w', '.']

/-- One pass of `.replace(/www\.[^\s]+/g, '')`. -/
def stripWwwF : ℕ → Str → Str
  | _, [] => []
  | 0, l => l
  | fuel + 1, c :: rest =>
    if (c :: rest).take 4 = wwwPat ∧
        ((c :: rest).drop 4).takeWhile (fun ch => !isSpaceChar ch) ≠ [] then
      stripWwwF fuel (((c :: rest).drop 4).dropWhile (fun ch => !isSpaceChar ch))
    else
      c :: stripWwwF fuel rest

def stripWww (l : Str) : Str := stripWwwF l.length l

/-- `removeCitations` (reader.js:24-29): the three replacements in source
    order (citation markers, then `http(s)://` URLs, then `www.` URLs). -/
def removeCitations (text : Str) : Str :=
  stripWww (stripHttpUrls (stripCitations text))

/-- JS `String.prototype.trim`. -/
def trim (l : Str) : Str :=
  ((l.dropWhile isSpaceChar).reverse.dropWhile isSpaceChar).reverse

/- JS `.split(/\s+/)` as a two-state scanner.  A delimiter run ends the
current field; a delimiter at the very start or very end of the string
produces an empty field, exactly as in JS. -/
mutual

/-- State "currently accumulating a field" (`acc` holds the field's
    characters in reverse). -/
def splitTok : Str → Str → List Str
  | [], acc => [acc.reverse]
  | c :: cs, acc =>
    if isSpaceChar c then acc.reverse :: splitGap cs else splitTok cs (c :: acc)

/-- State "inside a whitespace delimiter run". -/
def splitGap : Str → List Str
  | [] => [[]]
  | c :: cs => if isSpaceChar c then splitGap cs else splitTok cs [c]

end

/-- `parseText` (reader.js:36-41): strip citations/URLs, trim, split on
    whitespace runs, keep the nonempty fields. -/
def parseText (text : Str) : List Str :=
  (splitTok (trim (removeCitations text)) []).filter (fun word => word.length > 0)

/-- Spec-side tokenizer: the list of maximal runs of non-whitespace
    characters of a string, in order (`acc` holds the characters of the run
    being read, in reverse). -/
def wordsAux : Str → Str → List Str
  | [], acc => if acc = [] then [] else [acc.reverse]
  | c :: cs, acc =>
    if isSpaceChar c then
      if acc = [] then wordsAux cs [] else acc.reverse :: wordsAux cs []
    else
      wordsAux cs (c :: acc)

def wordsOf (l : Str) : List Str := wordsAux l []

/-!
## Progress and time formatting (reader.js:162-185)
-/

/-- JS `Math.floor` on an exact rational. -/
def jsFloor (q : ℚ) : ℤ := ⌊q⌋

/-- JS `Math.round`: round half toward positive infinity. -/
def jsRound (q : ℚ) : ℤ := ⌊q + 1/2⌋

/-- JS number-to-integer truncation (toward zero), used by the `%` operator. -/
def jsTrunc (q : ℚ) : ℤ := if 0 ≤ q then ⌊q⌋ else ⌈q⌉

/-- JS remainder operator `x % y` (sign follows the dividend). -/
def jsMod (x y : ℚ) : ℚ := x - y * jsTrunc (x / y)

/-- Decimal rendering of an integer, as JS template interpolation and
    `Number.prototype.toString` produce for integral values. -/
def intStr (i : ℤ) : String :=
  if i < 0 then "-" ++ Nat.repr i.natAbs else Nat.repr i.toNat

/-- JS `String.prototype.padStart(2, '0')`. -/
def padStart2 (s : String) : String :=
  if s.length < 2 then String.mk (List.replicate (2 - s.length) '0') ++ s else s

/-- `formatTime` (reader.js:181-185). -/
def formatTime (seconds : ℚ) : String :=
  let mins := jsFloor (seconds / 60)
  let secs := jsRound (jsMod seconds 60)
  intStr mins ++ ":" ++ padStart2 (intStr secs)

/-!
## The playback state machine (reader.js:6-17, 190-306)

The engine's mutable fields are gathered in `EngineState`.  `currentIndex`
is a `ℤ` because callers may pass arbitrary integers to `displayWordAt`.
`timer` records whether a `setTimeout` callback is pending; `step` models
that callback firing (a cancelled timer never fires, hence `step` is the
identity when no timer is pending).  The callback hooks `onWordChange`,
`onProgress` and `onComplete` are modelled as always wired (as the UI layer
wires them), by appending the values they would receive to an event log.
The collaborator pull-hook `getWPM` is modelled by the `wpm` argument of
`play`/`step`, and `Date.now()` by their `now` argument.  The computed
`delay = max(0, duration - drift)` only determines the real time at which
the pending callback fires, which is outside the untimed model; the
`expectedTime` bookkeeping it reads is still tracked faithfully.
-/

/-- `getProgress` payload (reader.js:162-174). -/
structure Progress where
  percentage : ℤ
  currentWord : ℤ
  totalWords : ℕ
  remainingTime : String
deriving DecidableEq, Repr

/-- A recorded callback invocation. -/
inductive Event where
  | wordChanged (parts : WordParts)
  | progressChanged (p : Progress)
  | completed
deriving DecidableEq, Repr

structure EngineState where
  words : List Str
  currentIndex : ℤ
  isPlaying : Bool
  timer : Bool
  expectedTime : ℚ
  events : List Event
deriving DecidableEq, Repr

/-- `getProgress` (reader.js:162-174): percentage (rounded), 1-based word
    ordinal, total count, and formatted remaining time. -/
def getProgress (wpm : ℚ) (s : EngineState) : Progress :=
  let totalWords := s.words.length
  let percentage : ℚ :=
    if 0 < totalWords then ((s.currentIndex : ℚ) / (totalWords : ℚ)) * 100 else 0
  let remainingWords : ℚ := (totalWords : ℚ) - (s.currentIndex : ℚ)
  let remainingSeconds := remainingWords / wpm * 60
  { percentage := jsRound percentage
    currentWord := s.currentIndex + 1
    totalWords := totalWords
    remainingTime := formatTime remainingSeconds }

/-- `this.onWordChange(this.splitWord(word))`. -/
def emitWordChange (word : Str) (s : EngineState) : EngineState :=
  { s with events := s.events ++ [Event.wordChanged (splitWord word)] }

/-- `this.onProgress(this.getProgress(wpm))`. -/
def emitProgressEv (wpm : ℚ) (s : EngineState) : EngineState :=
  { s with events := s.events ++ [Event.progressChanged (getProgress wpm s)] }

/-- `this.onComplete()`. -/
def fireComplete (s : EngineState) : EngineState :=
  { s with events := s.events ++ [Event.completed] }

/-- `scheduleNext` (reader.js:205-240).  The first branch stops playback and,
    when the terminal position is reached, invokes the completion hook;
    otherwise the current word and progress are emitted, `expectedTime`
    advances by the word's duration, and a timer is scheduled. -/
def scheduleNext (now wpm : ℚ) (s : EngineState) : EngineState :=
  if ¬ s.isPlaying ∨ (s.words.length : ℤ) ≤ s.currentIndex then
    let s1 := { s with isPlaying := false }
    if (s1.words.length : ℤ) ≤ s1.currentIndex then fireComplete s1 else s1
  else
    let word := s.words.getD s.currentIndex.toNat []
    let duration := getWordDuration word wpm
    let _delay := max 0 (duration - (now - s.expectedTime))
    let s1 := { s with expectedTime := s.expectedTime + duration }
    let s2 := emitProgressEv wpm (emitWordChange word s1)
    { s2 with timer := true }

/-- The pending `setTimeout` callback (reader.js:236-239) firing:
    `this.currentIndex++; this.scheduleNext();`.  A state without a pending
    timer has no callback to fire, so `step` leaves it unchanged. -/
def step (now wpm : ℚ) (s : EngineState) : EngineState :=
  if s.timer then
    scheduleNext now wpm { s with currentIndex := s.currentIndex + 1, timer := false }
  else s

/-- `play` (reader.js:190-199). -/
def play (now wpm : ℚ) (s : EngineState) : EngineState :=
  if s.isPlaying then s
  else
    let s1 := if (s.words.length : ℤ) ≤ s.currentIndex then { s with currentIndex := 0 } else s
    scheduleNext now wpm { s1 with isPlaying := true, expectedTime := now }

/-- `pause` (reader.js:245-251). -/
def pause (s : EngineState) : EngineState :=
  { s with isPlaying := false, timer := false }

/-- `stop` (reader.js:256-259). -/
def stop (s : EngineState) : EngineState :=
  let s1 := pause s
  { s1 with currentIndex := 0 }

/-- `init` (reader.js:47-52). -/
def init (text : Str) (s : EngineState) : EngineState :=
  stop { s with words := parseText text, currentIndex := 0, isPlaying := false }

/-- `restart` (reader.js:264-274).  The progress emission uses the hardcoded
    default rate 300 and happens even for an empty word list. -/
def restart (s : EngineState) : EngineState :=
  let s1 := pause s
  let s2 := { s1 with currentIndex := 0 }
  let s3 := if 0 < s2.words.length then emitWordChange (s2.words.getD 0 []) s2 else s2
  emitProgressEv 300 s3

/-- `goToEnd` (reader.js:279-289). -/
def goToEnd (s : EngineState) : EngineState :=
  let s1 := pause s
  let s2 := { s1 with currentIndex := max 0 ((s1.words.length : ℤ) - 1) }
  let s3 :=
    if 0 < s2.words.length then
      emitWordChange (s2.words.getD s2.currentIndex.toNat []) s2
    else s2
  emitProgressEv 300 s3

/-- `displayWordAt` (reader.js:296-306), the engine's seek operation. -/
def displayWordAt (index : ℤ) (wpm : ℚ) (s : EngineState) : EngineState :=
  if 0 ≤ index ∧ index < (s.words.length : ℤ) then
    let s1 := { s with currentIndex := index }
    emitProgressEv wpm (emitWordChange (s1.words.getD index.toNat []) s1)
  else s

/-- Number of completion-hook invocations recorded so far. -/
def completedCount (s : EngineState) : ℕ :=
  (s.events.filter (fun e => e = Event.completed)).length

/-- The playback-position invariant of the data model (§3 of the spec),
    strengthened with the two auxiliary facts about the pending timer that
    make it inductive: a pending timer only exists while playing and only
    while strictly before the terminal position, and at the terminal
    position the engine is never in `playing` mode. -/
def Inv (s : EngineState) : Prop :=
  0 ≤ s.currentIndex ∧
  s.currentIndex ≤ (s.words.length : ℤ) ∧
  (s.timer = true → s.isPlaying = true) ∧
  (s.timer = true → s.currentIndex < (s.words.length : ℤ)) ∧
  (s.currentIndex = (s.words.length : ℤ) → s.isPlaying = false)

instance (s : EngineState) : Decidable (Inv s) := by
  unfold Inv; infer_instance

/-!
## Claim C1: the highlight offset
-/

/-- C1, counterexample.  The claim's offset rule (`claimOffset` applied to the
    alphanumeric-cleaned length) and its concrete examples
    `highlightOffset("to") == 0` and `highlightOffset("reading") == 3` do not
    match the source's `getORPIndex`: the code returns 1 for "to", 1 for
    "speed" (claim: 2), 2 for "reading" (claim: 3), 3 for "evaluation"
    (claim: 4) and 4 for "characteristic" (claim: 6).  The final pair shows
    the cleaning must keep underscores (`\w`), not only alphanumerics: on
    "abcde_" the code returns bucket 2, while the bucket of the
    alphanumeric-cleaned length would be 1. -/
theorem c1_counterexample :
    getORPIndex ['t', 'o'] = 1 ∧
    getORPIndex ['s', 'p', 'e', 'e', 'd'] = 1 ∧
    getORPIndex ['r', 'e', 'a', 'd', 'i', 'n', 'g'] = 2 ∧
    getORPIndex ['e', 'v', 'a', 'l', 'u', 'a', 't', 'i', 'o', 'n'] = 3 ∧
    getORPIndex ['c', 'h', 'a', 'r', 'a', 'c', 't', 'e', 'r', 'i', 's', 't', 'i', 'c'] = 4 ∧
    getORPIndex ['a', 'b', 'c', 'd', 'e', '_'] = 2 ∧
    claimOffset (removeNonAlnum ['t', 'o']).length = 1 ∧
    claimOffset (removeNonAlnum ['s', 'p', 'e', 'e', 'd']).length = 2 ∧
    claimOffset (removeNonAlnum ['r', 'e', 'a', 'd', 'i', 'n', 'g']).length = 3 ∧
    claimOffset (removeNonAlnum ['e', 'v', 'a', 'l', 'u', 'a', 't', 'i', 'o', 'n']).length = 4 ∧
    claimOffset
      (removeNonAlnum ['c', 'h', 'a', 'r', 'a', 'c', 't', 'e', 'r', 'i', 's', 't', 'i', 'c']).length
      = 6 ∧
    orpBucket (removeNonAlnum ['a', 'b', 'c', 'd', 'e', '_']).length = 1 := by
  decide

/-- C1 (amended): for every token the highlight offset is a function of the
    length of its `\w`-cleaned form (letters, digits and underscore kept):
    0 for length ≤ 1, 1 for length ≤ 5, 2 for length ≤ 9, 3 for length ≤ 13
    and 4 otherwise; in particular `getORPIndex` gives 0 on "a", 1 on "to",
    1 on "the", 1 on "word" and 2 on "reading". -/
theorem c1_orp_amended :
    (∀ word : Str, getORPIndex word = orpBucket (stripPunctuation word).length) ∧
    getORPIndex ['a'] = 0 ∧
    getORPIndex ['t', 'o'] = 1 ∧
    getORPIndex ['t', 'h', 'e'] = 1 ∧
    getORPIndex ['w', 'o', 'r', 'd'] = 1 ∧
    getORPIndex ['r', 'e', 'a', 'd', 'i', 'n', 'g'] = 2 := by
  refine ⟨fun word => rfl, ?_, ?_, ?_, ?_, ?_⟩ <;> decide

/-!
## Claim C2: word display durations
-/

/-- C2, evaluation of the code at the claim's examples and at the failing
    input.  The four quoted examples hold, but a word ending in a real em
    dash (U+2014) gets the default multiplier 1.0, not the claimed 1.3: the
    em-dash entry of the source's multiplier table is keyed by a
    three-character mojibake string and is unreachable, while the
    repository's embedded requirements document (reader.js line 1087)
    specifies `'—': 1.3` with a true em dash. -/
theorem c2_code_evaluation :
    getWordDuration ['w', 'o', 'r', 'd', '.'] 300 = 400 ∧
    getWordDuration ['w', 'o', 'r', 'd', ','] 300 = 300 ∧
    getWordDuration ['w', 'o', 'r', 'd'] 300 = 200 ∧
    getWordDuration ['w', 'o', 'r', 'd', '.', '"'] 300 = 400 ∧
    getWordDuration ['w', 'o', 'r', 'd', '—'] 300 = 200 ∧
    getWordDuration ['w', 'o', 'r', 'd', '—'] 300 ≠ 260 := by
  have h1 : (stripClosers ['w', 'o', 'r', 'd', '.']).getLast? = some '.' := by decide
  have h2 : (stripClosers ['w', 'o', 'r', 'd', ',']).getLast? = some ',' := by decide
  have h3 : (stripClosers ['w', 'o', 'r', 'd']).getLast? = some 'd' := by decide
  have h4 : (stripClosers ['w', 'o', 'r', 'd', '.', '"']).getLast? = some '.' := by decide
  have h5 : (stripClosers ['w', 'o', 'r', 'd', '—']).getLast? = some '—' := by decide
  have m1 : punctuationMultiplier (some '.') = 2 := rfl
  have m2 : punctuationMultiplier (some ',') = 3/2 := rfl
  have m3 : punctuationMultiplier (some 'd') = 1 := rfl
  have m5 : punctuationMultiplier (some '—') = 1 := rfl
  refine ⟨?_, ?_, ?_, ?_, ?_, ?_⟩ <;>
    rw [getWordDuration] <;>
    simp only [h1, h2, h3, h4, h5, m1, m2, m3, m5] <;>
    norm_num

/-!
## Claim C9: the word-split partition
-/

/-- C9, counterexample.  `splitWord` partitions the `\w`-cleaned word, which
    keeps underscores, so on "a_b" the concatenation of the three parts is
    "a_b" and not the alphanumeric-cleaned "ab" the claim describes. -/
theorem c9_counterexample :
    (splitWord ['a', '_', 'b']).before ++ (splitWord ['a', '_', 'b']).highlight ++
        (splitWord ['a', '_', 'b']).after
      ≠ removeNonAlnum ['a', '_', 'b'] := by
  decide

/-- C9 (amended): for every string, the three `splitWord` components
    concatenate to the word with all non-`\w` characters removed (letters,
    digits and underscore kept), and when that cleaned token is empty all
    three components are empty. -/
theorem c9_split_partition (word : Str) :
    (splitWord word).before ++ (splitWord word).highlight ++ (splitWord word).after
        = stripPunctuation word ∧
      (stripPunctuation word = [] → splitWord word = ⟨[], [], []⟩) := by
  constructor
  · show (stripPunctuation word).take (getORPIndex word) ++
        (match (stripPunctuation word)[getORPIndex word]? with
          | some ch => [ch]
          | none => []) ++
        (stripPunctuation word).drop (getORPIndex word + 1) = stripPunctuation word
    by_cases hlt : getORPIndex word < (stripPunctuation word).length
    · rw [List.getElem?_eq_getElem hlt]
      calc (stripPunctuation word).take (getORPIndex word) ++
            [(stripPunctuation word)[getORPIndex word]] ++
            (stripPunctuation word).drop (getORPIndex word + 1)
          = (stripPunctuation word).take (getORPIndex word) ++
            (stripPunctuation word).drop (getORPIndex word) := by
            rw [List.drop_eq_getElem_cons hlt]; simp
        _ = stripPunctuation word := List.take_append_drop _ _
    · push_neg at hlt
      rw [List.getElem?_eq_none hlt, List.take_of_length_le hlt,
        List.drop_eq_nil_of_le (le_trans hlt (Nat.le_succ _))]
      simp
  · intro hE
    have hz : getORPIndex word = 0 := by
      unfold getORPIndex
      unfold stripPunctuation at hE
      simp [hE]
    simp [splitWord, hz, hE]

/-- C9, witness: on the all-punctuation token "!!" the cleaned token is empty
    and all three parts are empty. -/
theorem c9_witness : splitWord ['!', '!'] = ⟨[], [], []⟩ :=
  (c9_split_partition ['!', '!']).2 (by decide)

/-!
## Claims C3 and C10: the tokenizer

Shared helper lemmas relating the JS `trim`/`split(/\s+/)`/`filter` pipeline
to the list of maximal non-whitespace runs.
-/

/-- Filtering the empty fields out of the JS split yields exactly the maximal
    non-whitespace runs, from either scanner state. -/
theorem filter_split (cs : Str) :
    (∀ acc : Str, (splitTok cs acc).filter (fun w => w.length > 0) = wordsAux cs acc) ∧
      (splitGap cs).filter (fun w => w.length > 0) = wordsAux cs [] := by
  induction cs with
  | nil =>
    constructor
    · intro acc
      by_cases ha : acc = []
      · simp [splitTok, wordsAux, ha, List.filter]
      · have hl : 0 < acc.length := List.length_pos.mpr ha
        simp [splitTok, wordsAux, ha, List.filter, hl]
    · simp [splitGap, wordsAux, List.filter]
  | cons c cs ih =>
    constructor
    · intro acc
      by_cases hc : isSpaceChar c = true
      · by_cases ha : acc = []
        · simp [splitTok, wordsAux, hc, ha, List.filter, ih.2]
        · have hl : 0 < acc.length := List.length_pos.mpr ha
          simp [splitTok, wordsAux, hc, ha, List.filter, hl, ih.2]
      · simp [splitTok, wordsAux, hc, ih.1 (c :: acc)]
    · by_cases hc : isSpaceChar c = true
      · simp [splitGap, wordsAux, hc, ih.2]
      · simp [splitGap, wordsAux, hc, ih.1 [c]]

/-- On all-whitespace input the run scanner only ever closes the run it was
    given. -/
theorem wordsAux_space (t : Str) (acc : Str) (h : ∀ c ∈ t, isSpaceChar c = true) :
    wordsAux t acc = if acc = [] then [] else [acc.reverse] := by
  induction t generalizing acc with
  | nil => rfl
  | cons c t ih =>
    have hc : isSpaceChar c = true := h c (List.mem_cons_self c t)
    by_cases ha : acc = [] <;>
      simp [wordsAux, hc, ha, ih [] (fun x hx => h x (List.mem_cons_of_mem c hx))]

/-- Trailing whitespace does not change the maximal runs. -/
theorem wordsAux_append_space (s t : Str) (ht : ∀ c ∈ t, isSpaceChar c = true) :
    ∀ acc : Str, wordsAux (s ++ t) acc = wordsAux s acc := by
  induction s with
  | nil =>
    intro acc
    rw [List.nil_append, wordsAux_space t acc ht]
    cases acc <;> simp [wordsAux]
  | cons c s ih =>
    intro acc
    by_cases hc : isSpaceChar c = true <;> by_cases ha : acc = [] <;>
      simp [wordsAux, hc, ha, ih]

/-- Leading whitespace does not change the maximal runs. -/
theorem wordsAux_dropWhile_space (l : Str) :
    wordsAux (l.dropWhile isSpaceChar) [] = wordsAux l [] := by
  induction l with
  | nil => rfl
  | cons c l ih =>
    by_cases hc : isSpaceChar c = true
    · rw [List.dropWhile_cons_of_pos hc, ih]
      simp [wordsAux, hc]
    · rw [List.dropWhile_cons_of_neg (by simp [hc])]

/-- Trimming does not change the maximal runs. -/
theorem wordsAux_trim (l : Str) : wordsAux (trim l) [] = wordsAux l [] := by
  unfold trim
  have hdec : l.dropWhile isSpaceChar =
      ((l.dropWhile isSpaceChar).reverse.dropWhile isSpaceChar).reverse ++
        ((l.dropWhile isSpaceChar).reverse.takeWhile isSpaceChar).reverse := by
    conv_lhs => rw [← List.reverse_reverse (l.dropWhile isSpaceChar),
      ← List.takeWhile_append_dropWhile (p := isSpaceChar)
        (l := (l.dropWhile isSpaceChar).reverse)]
    rw [List.reverse_append]
  have hsp : ∀ c ∈ ((l.dropWhile isSpaceChar).reverse.takeWhile isSpaceChar).reverse,
      isSpaceChar c = true := by
    intro c hc
    rw [List.mem_reverse] at hc
    exact List.mem_takeWhile_imp hc
  calc wordsAux (((l.dropWhile isSpaceChar).reverse.dropWhile isSpaceChar).reverse) []
      = wordsAux (((l.dropWhile isSpaceChar).reverse.dropWhile isSpaceChar).reverse ++
          ((l.dropWhile isSpaceChar).reverse.takeWhile isSpaceChar).reverse) [] :=
        (wordsAux_append_space _ _ hsp []).symm
    _ = wordsAux (l.dropWhile isSpaceChar) [] := by rw [← hdec]
    _ = wordsAux l [] := wordsAux_dropWhile_space l

/-- The tokenizer pipeline equals the maximal-run extraction of the stripped
    text (shared between C3 and C10). -/
theorem parseText_eq_wordsOf (text : Str) :
    parseText text = wordsOf (removeCitations text) := by
  unfold parseText wordsOf
  rw [(filter_split (trim (removeCitations text))).1 [], wordsAux_trim]

/-- C3: for every input text, `parseText` removes citation markers and URLs
    (`removeCitations`), then trims, splits on whitespace runs and drops
    empty fields, and the resulting tokens are exactly the maximal runs of
    non-whitespace characters of the stripped text, in order. -/
theorem c3_tokenizer (text : Str) :
    parseText text = wordsOf (removeCitations text) :=
  parseText_eq_wordsOf text

/-- Every token produced by the run scanner is nonempty and whitespace-free,
    provided the partial run it was given is whitespace-free. -/
theorem wordsAux_tokens (l : Str) :
    ∀ acc : Str, (∀ c ∈ acc, isSpaceChar c = false) →
      ∀ w ∈ wordsAux l acc, w ≠ [] ∧ ∀ c ∈ w, isSpaceChar c = false := by
  induction l with
  | nil =>
    intro acc hacc w hw
    by_cases ha : acc = []
    · simp [wordsAux, ha] at hw
    · rw [wordsAux_space [] acc (by simp), if_neg ha] at hw
      rw [List.mem_singleton] at hw
      subst hw
      refine ⟨by simp [ha], ?_⟩
      intro c hc
      exact hacc c (List.mem_reverse.mp hc)
  | cons c l ih =>
    intro acc hacc w hw
    by_cases hc : isSpaceChar c = true
    · by_cases ha : acc = []
      · rw [wordsAux, if_pos hc, if_pos ha] at hw
        exact ih [] (by simp) w hw
      · rw [wordsAux, if_pos hc, if_neg ha, List.mem_cons] at hw
        rcases hw with hw | hw
        · subst hw
          refine ⟨by simp [ha], ?_⟩
          intro x hx
          exact hacc x (List.mem_reverse.mp hx)
        · exact ih [] (by simp) w hw
    · rw [wordsAux, if_neg hc] at hw
      refine ih (c :: acc) ?_ w hw
      intro x hx
      rcases List.mem_cons.mp hx with hx | hx
      · subst hx
        exact Bool.not_eq_true _ ▸ hc
      · exact hacc x hx

/-- C10: every token produced by `parseText` is a nonempty string containing
    no whitespace characters. -/
theorem c10_tokens_wellformed (text : Str) (w : Str) (hw : w ∈ parseText text) :
    w ≠ [] ∧ ∀ c ∈ w, isSpaceChar c = false := by
  rw [parseText_eq_wordsOf] at hw
  exact wordsAux_tokens (removeCitations text) [] (by simp) w hw

/-- C10, witness: the first token of "hi there" is nonempty and contains no
    whitespace. -/
theorem c10_witness :
    ['h', 'i'] ≠ ([] : Str) ∧
      ∀ c ∈ (['h', 'i'] : Str), isSpaceChar c = false :=
  c10_tokens_wellformed ['h', 'i', ' ', 't', 'h', 'e', 'r', 'e'] ['h', 'i'] (by decide)

/-!
## Claim C8: empty and whitespace-only input

The regex passes of `removeCitations` cannot fire on whitespace-only text:
their patterns all begin with a non-whitespace character.
-/

theorem stripCitationsF_space (fuel : ℕ) :
    ∀ l : Str, (∀ c ∈ l, isSpaceChar c = true) → stripCitationsF fuel l = l := by
  induction fuel with
  | zero => intro l _; cases l <;> rfl
  | succ fuel ih =>
    intro l h
    cases l with
    | nil => rfl
    | cons c rest =>
      have hc : isSpaceChar c = true := h c (List.mem_cons_self c rest)
      have hne : ¬(c = '[' ∧ rest.takeWhile isDigitChar ≠ [] ∧
          (rest.dropWhile isDigitChar).head? = some ']') := by
        rintro ⟨hcl, -, -⟩
        rw [hcl] at hc
        exact absurd hc (by decide)
      rw [stripCitationsF, if_neg hne, ih rest (fun x hx => h x (List.mem_cons_of_mem c hx))]

theorem stripHttpUrlsF_space (fuel : ℕ) :
    ∀ l : Str, (∀ c ∈ l, isSpaceChar c = true) → stripHttpUrlsF fuel l = l := by
  induction fuel with
  | zero => intro l _; cases l <;> rfl
  | succ fuel ih =>
    intro l h
    cases l with
    | nil => rfl
    | cons c rest =>
      have hc : isSpaceChar c = true := h c (List.mem_cons_self c rest)
      have hch : c ≠ 'h' := by
        rintro rfl
        exact absurd hc (by decide)
      have hne8 : ¬((c :: rest).take 8 = httpsPat ∧
          ((c :: rest).drop 8).takeWhile (fun ch => !isSpaceChar ch) ≠ []) := by
        rintro ⟨htk, -⟩
        have h8 : (c :: rest).take 8 = c :: rest.take 7 := rfl
        rw [h8, httpsPat] at htk
        exact hch (List.cons.injEq .. ▸ htk).1
      have hne7 : ¬((c :: rest).take 7 = httpPat ∧
          ((c :: rest).drop 7).takeWhile (fun ch => !isSpaceChar ch) ≠ []) := by
        rintro ⟨htk, -⟩
        have h7 : (c :: rest).take 7 = c :: rest.take 6 := rfl
        rw [h7, httpPat] at htk
        exact hch (List.cons.injEq .. ▸ htk).1
      rw [stripHttpUrlsF, if_neg hne8, if_neg hne7,
        ih rest (fun x hx => h x (List.mem_cons_of_mem c hx))]

theorem stripWwwF_space (fuel : ℕ) :
    ∀ l : Str, (∀ c ∈ l, isSpaceChar c = true) → stripWwwF fuel l = l := by
  induction fuel with
  | zero => intro l _; cases l <;> rfl
  | succ fuel ih =>
    intro l h
    cases l with
    | nil => rfl
    | cons c rest =>
      have hc : isSpaceChar c = true := h c (List.mem_cons_self c rest)
      have hcw : c ≠ 'w' := by
        rintro rfl
        exact absurd hc (by decide)
      have hne : ¬((c :: rest).take 4 = wwwPat ∧
          ((c :: rest).drop 4).takeWhile (fun ch => !isSpaceChar ch) ≠ []) := by
        rintro ⟨htk, -⟩
        have h4 : (c :: rest).take 4 = c :: rest.take 3 := rfl
        rw [h4, wwwPat] at htk
        exact hcw (List.cons.injEq .. ▸ htk).1
      rw [stripWwwF, if_neg hne, ih rest (fun x hx => h x (List.mem_cons_of_mem c hx))]

/-- Whitespace-only text passes through `removeCitations` unchanged. -/
theorem removeCitations_space (l : Str) (h : ∀ c ∈ l, isSpaceChar c = true) :
    removeCitations l = l := by
  rw [removeCitations, stripCitations, stripCitationsF_space _ l h,
    stripHttpUrls, stripHttpUrlsF_space _ l h, stripWww, stripWwwF_space _ l h]

/-- C8: every empty or whitespace-only input tokenizes to the empty sequence,
    and `init` on such input leaves the engine with no words, index 0,
    `stopped` mode and no pending timer, emitting nothing. -/
theorem c8_empty_input (text : Str) (s : EngineState)
    (h : ∀ c ∈ text, isSpaceChar c = true) :
    parseText text = [] ∧
      init text s =
        { s with words := [], currentIndex := 0, isPlaying := false, timer := false } := by
  have hp : parseText text = [] := by
    rw [parseText_eq_wordsOf, removeCitations_space text h, wordsOf,
      wordsAux_space text [] h]
    rfl
  exact ⟨hp, by simp [init, stop, pause, hp]⟩

/-- C8, witness: a concrete whitespace-only input on a concrete dirty state. -/
theorem c8_witness :
    parseText [' ', '\n', '\t'] = [] ∧
      init [' ', '\n', '\t'] ⟨[['x']], 3, true, true, 5, []⟩ =
        { (⟨[['x']], 3, true, true, 5, []⟩ : EngineState) with
            words := [], currentIndex := 0, isPlaying := false, timer := false } :=
  c8_empty_input [' ', '\n', '\t'] ⟨[['x']], 3, true, true, 5, []⟩ (by decide)

/-!
## Claim C4: time formatting
-/

/-- C4, counterexample.  `formatTime` does not roll a rounded-up seconds
    component over into the minutes: at 59.7 remaining seconds the code
    produces the string "0:60" (the claim says the result is never of the
    form "m:60"; a rollover would give "1:00"). -/
theorem c4_counterexample :
    formatTime (597/10) = "0:60" ∧ formatTime (597/10) ≠ "1:00" := by
  have h1 : ((597 : ℚ)/10) / 60 = 597/600 := by norm_num
  have hf : ⌊(597 : ℚ)/600⌋ = 0 := by
    apply Int.floor_eq_iff.mpr
    constructor <;> norm_num
  have hpos : (0 : ℚ) ≤ 597/600 := by norm_num
  have hsec : (597 : ℚ)/10 - 60 * ((0 : ℤ) : ℚ) + 1/2 = 301/5 := by norm_num
  have hr : ⌊(301 : ℚ)/5⌋ = 60 := by
    apply Int.floor_eq_iff.mpr
    constructor <;> norm_num
  constructor
  · unfold formatTime jsFloor jsRound jsMod jsTrunc
    rw [h1, if_pos hpos, hf, hsec, hr]
    decide
  · unfold formatTime jsFloor jsRound jsMod jsTrunc
    rw [h1, if_pos hpos, hf, hsec, hr]
    decide

/-- C4 (amended): for every non-negative `remainingSeconds` the formatted
    string is the unpadded minutes `⌊x/60⌋`, a colon, and the seconds
    component `round(x mod 60)` (rounding, not truncation) zero-padded to
    two digits; the seconds component lies in `[0, 60]`, and when it rounds
    up to 60 the string simply shows "…:60" with no rollover into the
    minutes. -/
theorem c4_formatTime_amended (x : ℚ) (hx : 0 ≤ x) :
    formatTime x =
        intStr ⌊x / 60⌋ ++ ":" ++ padStart2 (intStr ⌊x - 60 * (⌊x / 60⌋ : ℤ) + 1/2⌋) ∧
      0 ≤ ⌊x - 60 * (⌊x / 60⌋ : ℤ) + 1/2⌋ ∧
      ⌊x - 60 * (⌊x / 60⌋ : ℤ) + 1/2⌋ ≤ 60 := by
  have hfrac : x - 60 * (⌊x / 60⌋ : ℤ) = 60 * Int.fract (x / 60) := by
    rw [Int.fract]
    ring
  have hlow : (0 : ℚ) ≤ x - 60 * (⌊x / 60⌋ : ℤ) := by
    rw [hfrac]
    have := Int.fract_nonneg (x / 60)
    positivity
  have hhigh : x - 60 * (⌊x / 60⌋ : ℤ) < 60 := by
    rw [hfrac]
    have := Int.fract_lt_one (x / 60)
    nlinarith
  refine ⟨?_, ?_, ?_⟩
  · unfold formatTime jsFloor jsRound jsMod jsTrunc
    rw [if_pos (by positivity : (0 : ℚ) ≤ x / 60)]
  · apply Int.floor_nonneg.mpr
    linarith
  · have : ⌊x - 60 * (⌊x / 60⌋ : ℤ) + 1/2⌋ < 61 := by
      apply Int.floor_lt.mpr
      push_cast
      linarith
    omega

/-- C4, witness: seven remaining seconds format as "0:07" (zero-padded,
    computed through the amended formula). -/
theorem c4_witness : formatTime 7 = "0:07" := by
  have h := (c4_formatTime_amended 7 (by norm_num)).1
  have hf : ⌊(7 : ℚ) / 60⌋ = 0 := by
    apply Int.floor_eq_iff.mpr
    constructor <;> norm_num
  have hs : (7 : ℚ) - 60 * ((0 : ℤ) : ℚ) + 1/2 = 15/2 := by norm_num
  have hr : ⌊(15 : ℚ)/2⌋ = 7 := by
    apply Int.floor_eq_iff.mpr
    constructor <;> norm_num
  rw [h, hf, hs, hr]
  decide

/-!
## Branch lemmas for `scheduleNext`
-/

/-- At or past the terminal position, `scheduleNext` stops playback and
    fires the completion hook. -/
theorem scheduleNext_atEnd (now wpm : ℚ) (s : EngineState)
    (h : (s.words.length : ℤ) ≤ s.currentIndex) :
    scheduleNext now wpm s = fireComplete { s with isPlaying := false } := by
  unfold scheduleNext
  rw [if_pos (Or.inr h)]
  show (if (s.words.length : ℤ) ≤ s.currentIndex then
      fireComplete { s with isPlaying := false } else { s with isPlaying := false }) =
    fireComplete { s with isPlaying := false }
  rw [if_pos h]

/-- Called while not playing (a cancelled run) strictly before the end,
    `scheduleNext` just records the stop. -/
theorem scheduleNext_notPlaying (now wpm : ℚ) (s : EngineState)
    (hnp : s.isPlaying = false) (hlt : s.currentIndex < (s.words.length : ℤ)) :
    scheduleNext now wpm s = { s with isPlaying := false } := by
  unfold scheduleNext
  rw [if_pos (Or.inl (by simp [hnp]))]
  show (if (s.words.length : ℤ) ≤ s.currentIndex then
      fireComplete { s with isPlaying := false } else { s with isPlaying := false }) =
    { s with isPlaying := false }
  rw [if_neg (not_le.mpr hlt)]

/-- Playing strictly before the end, `scheduleNext` advances `expectedTime`,
    emits the current word and progress, and schedules a timer. -/
theorem scheduleNext_run (now wpm : ℚ) (s : EngineState)
    (hp : s.isPlaying = true) (hlt : s.currentIndex < (s.words.length : ℤ)) :
    scheduleNext now wpm s =
      { emitProgressEv wpm (emitWordChange (s.words.getD s.currentIndex.toNat [])
          { s with expectedTime :=
              s.expectedTime +
                getWordDuration (s.words.getD s.currentIndex.toNat []) wpm }) with
        timer := true } := by
  unfold scheduleNext
  rw [if_neg (by rw [hp]; simp; omega)]

/-!
## Claim C5: step monotonicity and single completion
-/

/-- Appending non-completion events does not change the completion count. -/
theorem completedCount_emit (s : EngineState) (word : Str) (wpm : ℚ) :
    completedCount (emitProgressEv wpm (emitWordChange word s)) = completedCount s := by
  simp [completedCount, emitProgressEv, emitWordChange, List.filter_append]

/-- Firing the completion hook increments the completion count by one. -/
theorem completedCount_fire (s : EngineState) :
    completedCount (fireComplete s) = completedCount s + 1 := by
  simp [completedCount, fireComplete, List.filter_append]

/-- C5: while `playing` with a pending timer and the index strictly before
    the terminal position, a step advances the index by exactly one;
    if the new index is still before the end the engine stays `playing`
    with a pending timer and no completion is emitted, and if the new index
    is the terminal position the engine transitions to `stopped`, schedules
    nothing further, and emits the completion hook exactly once; moreover a
    state without a pending timer is never changed by a step, so the hook
    cannot fire a second time without playback being restarted. -/
theorem c5_step_monotone_completion (now wpm : ℚ) (s : EngineState)
    (hp : s.isPlaying = true) (ht : s.timer = true)
    (_hlt : s.currentIndex < (s.words.length : ℤ)) :
    (step now wpm s).currentIndex = s.currentIndex + 1 ∧
      (s.currentIndex + 1 < (s.words.length : ℤ) →
        (step now wpm s).isPlaying = true ∧ (step now wpm s).timer = true ∧
          completedCount (step now wpm s) = completedCount s) ∧
      (s.currentIndex + 1 = (s.words.length : ℤ) →
        (step now wpm s).isPlaying = false ∧ (step now wpm s).timer = false ∧
          completedCount (step now wpm s) = completedCount s + 1) ∧
      (∀ s2 : EngineState, s2.timer = false → step now wpm s2 = s2) := by
  have hstep : step now wpm s =
      scheduleNext now wpm { s with currentIndex := s.currentIndex + 1, timer := false } := by
    unfold step
    rw [if_pos ht]
  refine ⟨?_, ?_, ?_, ?_⟩
  · rw [hstep]
    by_cases hend : (s.words.length : ℤ) ≤ s.currentIndex + 1
    · rw [scheduleNext_atEnd now wpm _ (by exact hend)]
      simp [fireComplete]
    · rw [scheduleNext_run now wpm _ (by exact hp) (by exact not_le.mp hend)]
      simp [emitProgressEv, emitWordChange]
  · intro hlt1
    rw [hstep, scheduleNext_run now wpm _ (by exact hp) (by exact hlt1)]
    refine ⟨by simp [emitProgressEv, emitWordChange, hp], rfl, ?_⟩
    simp [completedCount, emitProgressEv, emitWordChange, List.filter_append]
  · intro heq
    rw [hstep, scheduleNext_atEnd now wpm _ (by exact le_of_eq heq.symm)]
    refine ⟨by simp [fireComplete], by simp [fireComplete], ?_⟩
    simp [completedCount, fireComplete, List.filter_append]
  · intro s2 ht2
    unfold step
    rw [if_neg (by simp [ht2])]

/-- C5, witness: a concrete mid-playback step on a two-word sequence. -/
theorem c5_witness :
    (step 0 300 ⟨[['h', 'i'], ['y', 'o']], 0, true, true, 0, []⟩).currentIndex = 0 + 1 ∧
      (step 0 300 ⟨[['h', 'i'], ['y', 'o']], 0, true, true, 0, []⟩).isPlaying = true ∧
      (step 0 300 ⟨[['h', 'i'], ['y', 'o']], 0, true, true, 0, []⟩).timer = true ∧
      completedCount (step 0 300 ⟨[['h', 'i'], ['y', 'o']], 0, true, true, 0, []⟩) =
        completedCount (⟨[['h', 'i'], ['y', 'o']], 0, true, true, 0, []⟩ : EngineState) := by
  have h := c5_step_monotone_completion 0 300
    ⟨[['h', 'i'], ['y', 'o']], 0, true, true, 0, []⟩ rfl rfl (by decide)
  have h2 := h.2.1 (by decide)
  exact ⟨h.1, h2.1, h2.2.1, h2.2.2⟩

/-!
## Claim C6: the position invariant
-/

theorem Inv_init (text : Str) (s : EngineState) : Inv (init text s) := by
  refine ⟨?_, ?_, ?_, ?_, ?_⟩ <;> simp [init, stop, pause, Inv]

theorem Inv_scheduleNext (now wpm : ℚ) (s : EngineState)
    (h1 : 0 ≤ s.currentIndex) (h2 : s.currentIndex ≤ (s.words.length : ℤ))
    (h3 : s.timer = false) :
    Inv (scheduleNext now wpm s) := by
  by_cases hend : (s.words.length : ℤ) ≤ s.currentIndex
  · rw [scheduleNext_atEnd now wpm s hend]
    exact ⟨by simpa [fireComplete] using h1, by simpa [fireComplete] using h2,
      by simp [fireComplete, h3], by simp [fireComplete, h3], by simp [fireComplete]⟩
  · have hlt := not_le.mp hend
    by_cases hpb : s.isPlaying = true
    · rw [scheduleNext_run now wpm s hpb hlt]
      refine ⟨by simpa [emitProgressEv, emitWordChange] using h1,
        by simpa [emitProgressEv, emitWordChange] using h2,
        by simp [emitProgressEv, emitWordChange, hpb],
        by simpa [emitProgressEv, emitWordChange] using hlt, ?_⟩
      intro heq
      have heq' : s.currentIndex = (s.words.length : ℤ) := by
        simpa [emitProgressEv, emitWordChange] using heq
      omega
    · rw [scheduleNext_notPlaying now wpm s (by simpa using hpb) hlt]
      exact ⟨h1, h2, by simp [h3], by simp [h3], fun _ => rfl⟩

theorem Inv_play (now wpm : ℚ) (s : EngineState) (hs : Inv s) :
    Inv (play now wpm s) := by
  obtain ⟨h1, h2, h3, h4, h5⟩ := hs
  have htf : s.isPlaying = false → s.timer = false := by
    intro hnp
    cases ht : s.timer
    · rfl
    · rw [h3 ht] at hnp
      exact absurd hnp (by simp)
  unfold play
  by_cases hpb : s.isPlaying = true
  · rw [if_pos hpb]
    exact ⟨h1, h2, h3, h4, h5⟩
  · rw [if_neg hpb]
    have hnp : s.isPlaying = false := by
      cases hb : s.isPlaying
      · rfl
      · exact absurd hb hpb
    by_cases hw : (s.words.length : ℤ) ≤ s.currentIndex
    · rw [if_pos hw]
      exact Inv_scheduleNext now wpm _ (by simp) (by simp) (by simp [htf hnp])
    · rw [if_neg hw]
      exact Inv_scheduleNext now wpm _ (by simpa using h1) (by simpa using h2)
        (by simp [htf hnp])

theorem Inv_step (now wpm : ℚ) (s : EngineState) (hs : Inv s) :
    Inv (step now wpm s) := by
  obtain ⟨h1, h2, h3, h4, h5⟩ := hs
  unfold step
  by_cases ht : s.timer = true
  · rw [if_pos ht]
    have hlt := h4 ht
    exact Inv_scheduleNext now wpm _
      (by show (0 : ℤ) ≤ s.currentIndex + 1; omega)
      (by show s.currentIndex + 1 ≤ (s.words.length : ℤ); omega) rfl
  · rw [if_neg ht]
    exact ⟨h1, h2, h3, h4, h5⟩

theorem Inv_pause (s : EngineState) (hs : Inv s) : Inv (pause s) := by
  obtain ⟨h1, h2, _, _, _⟩ := hs
  exact ⟨h1, h2, by simp [pause], by simp [pause], fun _ => rfl⟩

theorem Inv_stop (s : EngineState) (_hs : Inv s) : Inv (stop s) := by
  refine ⟨by simp [stop, pause], by simp [stop, pause], ?_, ?_, fun _ => rfl⟩ <;>
    · intro htm
      simp [stop, pause] at htm

theorem Inv_restart (s : EngineState) (_hs : Inv s) : Inv (restart s) := by
  simp only [restart, pause]
  split_ifs with hw <;>
    refine ⟨?_, ?_, ?_, ?_, ?_⟩ <;>
      simp [emitProgressEv, emitWordChange]

theorem Inv_goToEnd (s : EngineState) (_hs : Inv s) : Inv (goToEnd s) := by
  simp only [goToEnd, pause]
  split_ifs with hw <;>
    refine ⟨?_, ?_, ?_, ?_, ?_⟩ <;>
      simp [emitProgressEv, emitWordChange]

theorem Inv_displayWordAt (index : ℤ) (wpm : ℚ) (s : EngineState) (hs : Inv s) :
    Inv (displayWordAt index wpm s) := by
  obtain ⟨h1, h2, h3, h4, h5⟩ := hs
  unfold displayWordAt
  by_cases hr : 0 ≤ index ∧ index < (s.words.length : ℤ)
  · rw [if_pos hr]
    refine ⟨by simpa [emitProgressEv, emitWordChange] using hr.1,
      by simpa [emitProgressEv, emitWordChange] using le_of_lt hr.2,
      by simpa [emitProgressEv, emitWordChange] using h3,
      by simpa [emitProgressEv, emitWordChange] using fun _ => hr.2, ?_⟩
    intro heq
    have heq' : index = (s.words.length : ℤ) := by
      simpa [emitProgressEv, emitWordChange] using heq
    exact absurd hr.2 (by omega)
  · rw [if_neg hr]
    exact ⟨h1, h2, h3, h4, h5⟩

/-- C6: the playback-position invariant `0 ≤ currentIndex ≤ length` — with
    `currentIndex = length` only in non-`playing` (completed/stopped) states,
    and a pending timer only while `playing` strictly before the end — holds
    after `init` and is preserved by `play`, the timer step, `pause`,
    `stop`, `restart`, `goToEnd` and `displayWordAt` (seek). -/
theorem c6_position_invariant :
    (∀ (text : Str) (s : EngineState), Inv (init text s)) ∧
      (∀ (now wpm : ℚ) (s : EngineState), Inv s → Inv (play now wpm s)) ∧
      (∀ (now wpm : ℚ) (s : EngineState), Inv s → Inv (step now wpm s)) ∧
      (∀ s : EngineState, Inv s → Inv (pause s)) ∧
      (∀ s : EngineState, Inv s → Inv (stop s)) ∧
      (∀ s : EngineState, Inv s → Inv (restart s)) ∧
      (∀ s : EngineState, Inv s → Inv (goToEnd s)) ∧
      (∀ (index : ℤ) (wpm : ℚ) (s : EngineState), Inv s → Inv (displayWordAt index wpm s)) :=
  ⟨Inv_init, Inv_play, Inv_step, Inv_pause, Inv_stop, Inv_restart, Inv_goToEnd,
    Inv_displayWordAt⟩

/-- C6, witness: the invariant holds on a concrete state and is preserved by
    a concrete `play` and a concrete seek. -/
theorem c6_witness :
    Inv (play 0 300 ⟨[['a'], ['b']], 0, false, false, 0, []⟩) ∧
      Inv (displayWordAt 1 300 ⟨[['a'], ['b']], 0, false, false, 0, []⟩) :=
  ⟨c6_position_invariant.2.1 0 300 _ (by decide),
    c6_position_invariant.2.2.2.2.2.2.2 1 300 _ (by decide)⟩

/-!
## Claim C7: out-of-range seeks are no-ops
-/

/-- C7: `displayWordAt i wpm` with `i < 0` or `i ≥ length` leaves the state
    completely unchanged — same index, same mode, same pending timer, and no
    word-changed or progress-changed emission (the event log is unchanged);
    being a total function, it raises no error. -/
theorem c7_seek_out_of_range (index : ℤ) (wpm : ℚ) (s : EngineState)
    (h : index < 0 ∨ (s.words.length : ℤ) ≤ index) :
    displayWordAt index wpm s = s := by
  unfold displayWordAt
  rw [if_neg]
  rintro ⟨h0, hlen⟩
  rcases h with h | h <;> omega

/-- C7, witness: `seekTo (-1)` and `seekTo 5` on a five-token sequence leave
    the state unchanged. -/
theorem c7_witness :
    displayWordAt (-1) 300 ⟨[['a'], ['b'], ['c'], ['d'], ['e']], 2, false, false, 0, []⟩ =
        ⟨[['a'], ['b'], ['c'], ['d'], ['e']], 2, false, false, 0, []⟩ ∧
      displayWordAt 5 300 ⟨[['a'], ['b'], ['c'], ['d'], ['e']], 2, false, false, 0, []⟩ =
        ⟨[['a'], ['b'], ['c'], ['d'], ['e']], 2, false, false, 0, []⟩ :=
  ⟨c7_seek_out_of_range (-1) 300 _ (Or.inl (by decide)),
    c7_seek_out_of_range 5 300 _ (Or.inr (by decide))⟩

end SpeedReader
